import Mathlib

/-!
Verification of the Comparison & Allocation Engine of the supermarket
purchase helper. The definitions below are a shallow embedding of the
TypeScript source:
  * `parsePrice` from the shared price normalizer (compare/page.tsx,
    plan pages);
  * `stores` from the global store-list derivation (compare/page.tsx and
    the split-plan page);
  * `cheapestGroups` and `availabilityGroups` from the split-plan page;
  * the best/worst highlighting of the comparison table (compare/page.tsx);
  * `planRows` from the plan page (single best pick per product).
Record objects (`prices_by_store`) are embedded as association lists in key
insertion order, the order in which JavaScript iterates string keys of an
object. JavaScript Maps are embedded as association lists with
update-in-place / append-at-end semantics (`mapSetAppend`, `mapSetNat`).
Finite IEEE doubles are idealised as exact rationals; the finite/infinite
boundary of `Number.parseFloat` is kept exactly: an exact decimal value of
at least 2^1024 - 2^970 rounds to Infinity and is rejected by
`Number.isFinite`.
-/

namespace MarketHelper

/-- Embedding of the `ApiStorePrice` cell: raw price text plus optional
display-only fields. Only `price` is ever read by the engine. -/
structure ApiStorePrice where
  price : String
  unit_price : Option String := none
  source_url : Option String := none
  scraped_at : Option String := none
deriving DecidableEq, Repr

/-- Embedding of `ApiCompareRow`: one product with its per-store price
cells. The store mapping is kept in key insertion order. -/
structure ApiCompareRow where
  product_key : String
  name : String
  packaging_format : Option String := none
  image : Option String := none
  prices_by_store : List (String × ApiStorePrice)
deriving DecidableEq, Repr

/-- Embedding of `GroupedItem` from the split-plan page. -/
structure GroupedItem where
  product_key : String
  name : String
  packaging_format : Option String
  image : Option String
  store : String
  priceText : Option String
  priceNumber : Option ℚ
deriving DecidableEq, Repr

/-- Embedding of `StoreGroup` from the split-plan page. -/
structure StoreGroup where
  store : String
  items : List GroupedItem
deriving DecidableEq, Repr

/-- Embedding of `PlanRow` from the plan page. The display-only
`bestPriceText` field (a `toFixed(2)` rendering of `bestPriceNumber`) is
omitted: no claim concerns it. -/
structure PlanRow where
  product_key : String
  name : String
  packaging_format : Option String
  image : Option String
  bestPriceNumber : Option ℚ
  supermarkets : List String
deriving DecidableEq, Repr

/-! ## Price normalizer -/

/-- Characters kept by the regex replace `value.replace(/[^0-9.]/g, "")`:
digits and the decimal point. -/
def isPriceChar (c : Char) : Bool :=
  c.isDigit || c == '.'

/-- The cleaned remainder: every character that is not a digit or a
decimal point is stripped. -/
def cleaned (v : String) : String :=
  (v.toList.filter isPriceChar).asString

/-- Decimal value of a digit list (most significant first). -/
def digitsVal (l : List Char) : ℕ :=
  l.foldl (fun a c => 10 * a + (c.toNat - 48)) 0

/-- Embedding of `Number.parseFloat` restricted to strings made of digits
and dots, which is all that `cleaned` can produce. JavaScript parseFloat
reads the longest prefix matching the float syntax: leading digits, then
optionally a dot and more digits, and stops at anything further (such as a
second dot). It returns NaN, embedded as `none`, exactly when that prefix
holds no digit. -/
def parseFloatDigitsDot (l : List Char) : Option ℚ :=
  let intPart := l.takeWhile Char.isDigit
  let rest := l.dropWhile Char.isDigit
  let fracPart :=
    match rest with
    | '.' :: r => r.takeWhile Char.isDigit
    | _ => []
  if intPart.isEmpty && fracPart.isEmpty then none
  else some (mkRat (digitsVal intPart * 10 ^ fracPart.length + digitsVal fracPart) (10 ^ fracPart.length))

/-- Exact decimal values at or above this bound round to Infinity under
IEEE double round-to-nearest-even, so `Number.parseFloat` returns Infinity
for them and `Number.isFinite` rejects them. -/
def doubleOverflow : ℚ :=
  ((2 ^ 1024 - 2 ^ 970 : ℕ) : ℚ)

/-- Embedding of `Number.isFinite` applied to the parseFloat result, in
the exact-rational idealisation of finite doubles. -/
def jsFinite (q : ℚ) : Bool :=
  decide (q < doubleOverflow)

/-- Embedding of `parsePrice` (identical in compare, plan and split-plan
pages): `null`, `undefined` and the empty string are falsy and give
`null`; otherwise the text is stripped to digits and dots, an empty
remainder gives `null`, and the remainder is parsed with
`Number.parseFloat`, keeping only finite results. -/
def parsePrice (value : Option String) : Option ℚ :=
  match value with
  | none => none
  | some v =>
    if v = "" then none
    else
      let c := cleaned v
      if c = "" then none
      else
        match parseFloatDigitsDot c.toList with
        | none => none
        | some q => if jsFinite q then some q else none

/-! ## Store-name ordering

The `localeCompare` comparator used by every sort in the source is
embedded as the lexicographic order on the character lists of the two
strings, written as a structurally recursive Boolean so that it evaluates
on concrete inputs. -/

/-- Lexicographic less-or-equal on character lists. -/
def charsLe : List Char → List Char → Bool
  | [], _ => true
  | _ :: _, [] => false
  | a :: as, b :: bs => if a < b then true else if b < a then false else charsLe as bs

/-- Embedding of the ascending `localeCompare` order on store names. -/
def strLE (a b : String) : Prop :=
  charsLe a.data b.data = true

instance : DecidableRel strLE := fun a b => by
  unfold strLE; infer_instance

/-! ## Association-list embeddings of JavaScript objects and Maps -/

/-- Embedding of `Map.get` / object indexing on an association list. -/
def mapGet (m : List (String × α)) (s : String) : Option α :=
  match m with
  | [] => none
  | (k, v) :: rest => if k = s then some v else mapGet rest s

/-- Embedding of reading `row.prices_by_store?.[store]?.price`: the price
text stored for a store, when the store has a cell in the row. -/
def priceAt (row : ApiCompareRow) (store : String) : Option String :=
  (mapGet row.prices_by_store store).map ApiStorePrice.price

/-- Embedding of `byStore.set(store, [...(byStore.get(store) ?? []), item])`
on a JavaScript Map: the existing entry is updated in place, a missing key
is appended at the end (Map insertion-order semantics). -/
def mapSetAppend (m : List (String × List GroupedItem)) (store : String)
    (item : GroupedItem) : List (String × List GroupedItem) :=
  match m with
  | [] => [(store, [item])]
  | (k, items) :: rest =>
    if k = store then (k, items ++ [item]) :: rest
    else (k, items) :: mapSetAppend rest store item

/-- Embedding of `availabilityCount.set(store, v)` on a JavaScript Map of
counters. -/
def mapSetNat (m : List (String × ℕ)) (store : String) (v : ℕ) :
    List (String × ℕ) :=
  match m with
  | [] => [(store, v)]
  | (k, n) :: rest =>
    if k = store then (k, v) :: rest
    else (k, n) :: mapSetNat rest store v

/-! ## Global store list -/

/-- Embedding of the `stores` memo (identical in compare and split-plan
pages): collect every non-empty store name across the rows into a Set,
then sort ascending with the `localeCompare` comparator (embedded as
`strLE`); sorting makes the Set insertion order irrelevant, so the Set is
embedded as first-occurrence deduplication. -/
def stores (rows : List ApiCompareRow) : List String :=
  ((rows.flatMap fun row =>
      (row.prices_by_store.map Prod.fst).filter fun s => s != "").dedup).insertionSort strLE

/-! ## Policy A: cheapest-store grouping -/

/-- One step of the best-store scan in `cheapestGroups`: a cell with no
parseable price is skipped; a parseable price replaces the running best
only when strictly lower, so the first store attaining the minimum wins
exact ties. The accumulator carries (bestStore, bestPrice, bestPriceText). -/
def bestStep (acc : Option (String × ℚ × String)) (e : String × ApiStorePrice) :
    Option (String × ℚ × String) :=
  match parsePrice (some e.2.price) with
  | none => acc
  | some p =>
    match acc with
    | none => some (e.1, p, e.2.price)
    | some b => if p < b.2.1 then some (e.1, p, e.2.price) else acc

/-- The inner `for (const store of Object.keys(row.prices_by_store))` loop
of `cheapestGroups`, scanning the cells in key insertion order. -/
def bestOfRow (row : ApiCompareRow) : Option (String × ℚ × String) :=
  row.prices_by_store.foldl bestStep none

/-- The `GroupedItem` built by `cheapestGroups` for an assigned row. -/
def cheapestItemOf (row : ApiCompareRow) (bs : String) (bp : ℚ) (bt : String) :
    GroupedItem :=
  { product_key := row.product_key
    name := row.name
    packaging_format := row.packaging_format
    image := row.image
    store := bs
    priceText := some bt
    priceNumber := some bp }

/-- What `cheapestGroups` contributes for one row: the guard
`if (!bestStore) continue` skips both a row with no parseable price
(bestStore null) and a row whose winning store name is the empty string
(the empty string is falsy in JavaScript). -/
def cheapestAssign (row : ApiCompareRow) : Option GroupedItem :=
  match bestOfRow row with
  | none => none
  | some b => if b.1 = "" then none else some (cheapestItemOf row b.1 b.2.1 b.2.2)

/-- The row loop shared by both allocation policies: each row either
contributes no item or appends its item to its store entry of the Map. -/
def assignFold (f : ApiCompareRow → Option GroupedItem)
    (rows : List ApiCompareRow) (m : List (String × List GroupedItem)) :
    List (String × List GroupedItem) :=
  rows.foldl (fun acc row =>
    match f row with
    | none => acc
    | some item => mapSetAppend acc item.store item) m

/-- Embedding of `cheapestGroups`: assign each row to its first strictly
cheapest store, group by store in a Map, then emit the entries sorted by
store name ascending (the `localeCompare` sort). -/
def cheapestGroups (rows : List ApiCompareRow) : List StoreGroup :=
  ((assignFold cheapestAssign rows []).map fun e =>
    StoreGroup.mk e.1 e.2).insertionSort fun a b => strLE a.store b.store

/-! ## Policy B: availability-ranked grouping -/

/-- The nested counting loops of `availabilityGroups`: every store of the
global list starts at zero, and each (row, store) pair with a parseable
price bumps the store counter. -/
def availabilityCountMap (rows : List ApiCompareRow) (sts : List String) :
    List (String × ℕ) :=
  rows.foldl (fun m row =>
    sts.foldl (fun acc store =>
      if (parsePrice (priceAt row store)).isSome then
        mapSetNat acc store ((mapGet acc store).getD 0 + 1)
      else acc) m)
    (sts.map fun s => (s, 0))

/-- Order produced by the ranking comparator of `availabilityGroups`: a
store sorts before another when its count is higher, with ties broken by
name ascending (`localeCompare` embedded as the String order). -/
def rankLE (cnt : String → ℕ) (a b : String) : Prop :=
  cnt b < cnt a ∨ (cnt a = cnt b ∧ strLE a b)

instance (cnt : String → ℕ) : DecidableRel (rankLE cnt) := fun a b => by
  unfold rankLE; infer_instance

/-- Embedding of `rankedStores`: the global store list sorted by the
availability comparator. Store names are distinct and the comparator is a
total order on them, so any comparison sort returns this unique sorted
permutation. -/
def rankedStores (rows : List ApiCompareRow) : List String :=
  (stores rows).insertionSort
    (rankLE fun s => (mapGet (availabilityCountMap rows (stores rows)) s).getD 0)

/-- The inner scan of the assignment loop of `availabilityGroups`: the
first ranked store with a parseable price for the row. -/
def chosenStore (ranked : List String) (row : ApiCompareRow) : Option String :=
  ranked.find? fun store => (parsePrice (priceAt row store)).isSome

/-- The `GroupedItem` built by `availabilityGroups` for an assigned row. -/
def availItem (row : ApiCompareRow) (store : String) : GroupedItem :=
  { product_key := row.product_key
    name := row.name
    packaging_format := row.packaging_format
    image := row.image
    store := store
    priceText := priceAt row store
    priceNumber := parsePrice (priceAt row store) }

/-- What `availabilityGroups` contributes for one row. -/
def availAssign (ranked : List String) (row : ApiCompareRow) :
    Option GroupedItem :=
  (chosenStore ranked row).map (availItem row)

/-- Embedding of `availabilityGroups`: rank the stores, seed the Map with
every ranked store mapped to an empty list, assign each row to its first
ranked store with a parseable price, then emit the non-empty entries in
Map insertion order, which is the ranked order. -/
def availabilityGroups (rows : List ApiCompareRow) : List StoreGroup :=
  ((assignFold (availAssign (rankedStores rows)) rows
      ((rankedStores rows).map fun s => (s, []))).map fun e =>
    StoreGroup.mk e.1 e.2).filter fun g => decide (0 < g.items.length)

/-! ## Comparison-table highlighting -/

/-- Embedding of the `numericByStore` Map of the comparison table: one
entry per global store whose cell parses, in store-column order. -/
def numericByStore (sts : List String) (row : ApiCompareRow) :
    List (String × ℚ) :=
  sts.filterMap fun store => (parsePrice (priceAt row store)).map fun p => (store, p)

/-- Embedding of `values.length ? Math.min(...values) : null` over the
parseable prices of a row. -/
def rowMin (sts : List String) (row : ApiCompareRow) : Option ℚ :=
  match (numericByStore sts row).map Prod.snd with
  | [] => none
  | v :: vs => some (vs.foldl min v)

/-- Embedding of `values.length ? Math.max(...values) : null`. -/
def rowMax (sts : List String) (row : ApiCompareRow) : Option ℚ :=
  match (numericByStore sts row).map Prod.snd with
  | [] => none
  | v :: vs => some (vs.foldl max v)

/-- Embedding of `isBest = min !== null && priceNumber === min`; a store
with no parseable cell has `priceNumber` undefined, which never equals a
number. -/
def isBest (sts : List String) (row : ApiCompareRow) (store : String) : Bool :=
  match rowMin sts row, mapGet (numericByStore sts row) store with
  | some mn, some p => p == mn
  | _, _ => false

/-- Embedding of `isWorst = highlightWorst && max !== null &&
priceNumber === max`, with `highlightWorst = min !== null && max !== null
&& min !== max`. -/
def isWorst (sts : List String) (row : ApiCompareRow) (store : String) : Bool :=
  match rowMin sts row, rowMax sts row, mapGet (numericByStore sts row) store with
  | some mn, some mx, some p => mn != mx && p == mx
  | _, _, _ => false

/-! ## Plan view: single best pick per row -/

/-- One step of the best-price scan of the plan page (price value only). -/
def planBestStep (b : Option ℚ) (e : String × ApiStorePrice) : Option ℚ :=
  match parsePrice (some e.2.price) with
  | none => b
  | some p =>
    match b with
    | none => some p
    | some bp => if p < bp then some p else b

/-- The first loop of `planRows` for one row: the minimum parseable price
across the cells of the row, scanning `Object.entries` in key order. -/
def planBest (row : ApiCompareRow) : Option ℚ :=
  row.prices_by_store.foldl planBestStep none

/-- The second loop of `planRows` plus the final sort: every store whose
parseable price equals the best one, sorted ascending; the loop only runs
when a best price exists. -/
def planSupermarkets (row : ApiCompareRow) : List String :=
  (show List String from
    match planBest row with
    | none => []
    | some bp =>
      (row.prices_by_store.filter fun e =>
        parsePrice (some e.2.price) == some bp).map Prod.fst).insertionSort strLE

/-- Embedding of the `PlanRow` built for one response row. -/
def planRowOf (row : ApiCompareRow) : PlanRow :=
  { product_key := row.product_key
    name := row.name
    packaging_format := row.packaging_format
    image := row.image
    bestPriceNumber := planBest row
    supermarkets := planSupermarkets row }

/-- Embedding of the `planRows` memo. -/
def planRows (rows : List ApiCompareRow) : List PlanRow :=
  rows.map planRowOf

/-! ## Specification-side notions

These definitions restate, directly from the wording of the
specification, the quantities the claims talk about; the theorems below
relate the embedded code to them. -/

/-- The parseable entries of a row, in store-mapping iteration order:
(store, numeric price, raw price text). -/
def parsedEntries (row : ApiCompareRow) : List (String × ℚ × String) :=
  row.prices_by_store.filterMap fun e =>
    (parsePrice (some e.2.price)).map fun p => (e.1, p, e.2.price)

/-- The first entry of the list attaining the minimal numeric price:
every earlier entry is strictly more expensive and no later entry is
cheaper. -/
def IsFirstMin (l : List (String × ℚ × String)) (e : String × ℚ × String) : Prop :=
  ∃ l1 l2, l = l1 ++ e :: l2 ∧ (∀ x ∈ l1, e.2.1 < x.2.1) ∧ (∀ x ∈ l2, e.2.1 ≤ x.2.1)

/-- Whether a row has a parseable price at a store. -/
def hasPriceAt (row : ApiCompareRow) (store : String) : Bool :=
  (parsePrice (priceAt row store)).isSome

/-- Number of rows with a parseable price at a store: the availability
count of the specification. -/
def coverageCount (rows : List ApiCompareRow) (store : String) : ℕ :=
  rows.countP fun row => hasPriceAt row store

/-- Result of one comparison step on already-parsed entries: the earlier
entry is kept unless the later one is strictly cheaper. -/
def minStep (b x : String × ℚ × String) : String × ℚ × String :=
  if x.2.1 < b.2.1 then x else b

/-- The best-store scan on already-parsed entries. -/
def optStep (acc : Option (String × ℚ × String)) (x : String × ℚ × String) :
    Option (String × ℚ × String) :=
  match acc with
  | none => some x
  | some b => some (minStep b x)

/-- The items a policy assigns to one store, in input row order. -/
def itemsFor (f : ApiCompareRow → Option GroupedItem)
    (rows : List ApiCompareRow) (s : String) : List GroupedItem :=
  (rows.filterMap f).filter fun it => it.store == s

/-- Concrete cells and rows used to evaluate the engine on closed inputs. -/
def demoCell (s : String) : ApiStorePrice :=
  { price := s }

/-- Row with an exact tie between stores B (first in mapping order) and A. -/
def demoRow1 : ApiCompareRow :=
  { product_key := "p1", name := "P1",
    prices_by_store := [("B", demoCell "3"), ("A", demoCell "3")] }

/-- Row cheapest at store A. -/
def demoRow2 : ApiCompareRow :=
  { product_key := "p2", name := "P2",
    prices_by_store := [("A", demoCell "2"), ("B", demoCell "4")] }

/-- Row priced only at store B. -/
def demoRow3 : ApiCompareRow :=
  { product_key := "p3", name := "P3",
    prices_by_store := [("B", demoCell "9")] }

/-- Row whose strictly lowest price sits under the empty store name. -/
def demoRow4 : ApiCompareRow :=
  { product_key := "p4", name := "P4",
    prices_by_store := [("", demoCell "1"), ("A", demoCell "2")] }

/-- Row with no parseable price anywhere. -/
def demoRow5 : ApiCompareRow :=
  { product_key := "p5", name := "P5",
    prices_by_store := [("A", demoCell "n/a")] }

/-! ## Order lemmas for the store-name comparator -/

theorem charsLe_cons_iff {a b : Char} {as bs : List Char} :
    charsLe (a :: as) (b :: bs) = true ↔ a < b ∨ (a = b ∧ charsLe as bs = true) := by
  by_cases hab : a < b
  · simp [charsLe, hab]
  · by_cases hba : b < a
    · have : a ≠ b := fun h => absurd (h ▸ hba) (lt_irrefl a)
      simp [charsLe, hab, hba, this]
    · have : a = b := le_antisymm (not_lt.1 hba) (not_lt.1 hab)
      simp [charsLe, hab, hba, this]

theorem charsLe_total : ∀ l1 l2 : List Char, charsLe l1 l2 = true ∨ charsLe l2 l1 = true
  | [], _ => Or.inl rfl
  | _ :: _, [] => Or.inr rfl
  | a :: as, b :: bs => by
    rcases lt_trichotomy a b with h | h | h
    · exact Or.inl (charsLe_cons_iff.2 (Or.inl h))
    · rcases charsLe_total as bs with h2 | h2
      · exact Or.inl (charsLe_cons_iff.2 (Or.inr ⟨h, h2⟩))
      · exact Or.inr (charsLe_cons_iff.2 (Or.inr ⟨h.symm, h2⟩))
    · exact Or.inr (charsLe_cons_iff.2 (Or.inl h))

theorem charsLe_trans : ∀ l1 l2 l3 : List Char,
    charsLe l1 l2 = true → charsLe l2 l3 = true → charsLe l1 l3 = true
  | [], _, _, _, _ => rfl
  | a :: as, [], _, h1, _ => by simp [charsLe] at h1
  | a :: as, b :: bs, [], _, h2 => by simp [charsLe] at h2
  | a :: as, b :: bs, c :: cs, h1, h2 => by
    rcases charsLe_cons_iff.1 h1 with hab | ⟨hab, hrec1⟩ <;>
      rcases charsLe_cons_iff.1 h2 with hbc | ⟨hbc, hrec2⟩
    · exact charsLe_cons_iff.2 (Or.inl (lt_trans hab hbc))
    · exact charsLe_cons_iff.2 (Or.inl (hbc ▸ hab))
    · exact charsLe_cons_iff.2 (Or.inl (hab ▸ hbc))
    · exact charsLe_cons_iff.2 (Or.inr ⟨hab.trans hbc, charsLe_trans as bs cs hrec1 hrec2⟩)

theorem charsLe_antisymm : ∀ l1 l2 : List Char,
    charsLe l1 l2 = true → charsLe l2 l1 = true → l1 = l2
  | [], [], _, _ => rfl
  | [], _ :: _, _, h2 => by simp [charsLe] at h2
  | _ :: _, [], h1, _ => by simp [charsLe] at h1
  | a :: as, b :: bs, h1, h2 => by
    rcases charsLe_cons_iff.1 h1 with hab | ⟨hab, hrec1⟩ <;>
      rcases charsLe_cons_iff.1 h2 with hba | ⟨hba, hrec2⟩
    · exact absurd hba (lt_asymm hab)
    · exact absurd (hba ▸ hab) (lt_irrefl b)
    · exact absurd (hab ▸ hba) (lt_irrefl b)
    · exact hab ▸ congrArg (List.cons a) (charsLe_antisymm as bs hrec1 hrec2)

instance : IsTotal String strLE :=
  ⟨fun a b => charsLe_total a.data b.data⟩

instance : IsTrans String strLE :=
  ⟨fun a b c => charsLe_trans a.data b.data c.data⟩

instance : IsAntisymm String strLE :=
  ⟨fun a b h1 h2 => by
    cases a; cases b
    exact congrArg String.mk (charsLe_antisymm _ _ h1 h2)⟩

instance : IsTotal StoreGroup fun a b => strLE a.store b.store :=
  ⟨fun a b => charsLe_total a.store.data b.store.data⟩

instance : IsTrans StoreGroup fun a b => strLE a.store b.store :=
  ⟨fun a b c => charsLe_trans a.store.data b.store.data c.store.data⟩

instance (cnt : String → ℕ) : IsTotal String (rankLE cnt) :=
  ⟨fun a b => by
    unfold rankLE
    rcases lt_trichotomy (cnt a) (cnt b) with h | h | h
    · exact Or.inr (Or.inl h)
    · rcases charsLe_total a.data b.data with h2 | h2
      · exact Or.inl (Or.inr ⟨h, h2⟩)
      · exact Or.inr (Or.inr ⟨h.symm, h2⟩)
    · exact Or.inl (Or.inl h)⟩

instance (cnt : String → ℕ) : IsTrans String (rankLE cnt) :=
  ⟨fun a b c h1 h2 => by
    unfold rankLE at h1 h2 ⊢
    rcases h1 with h1 | ⟨h1, h1s⟩ <;> rcases h2 with h2 | ⟨h2, h2s⟩
    · exact Or.inl (lt_trans h2 h1)
    · exact Or.inl (h2 ▸ h1)
    · exact Or.inl (h1 ▸ h2)
    · exact Or.inr ⟨h1.trans h2, charsLe_trans _ _ _ h1s h2s⟩⟩

/-! ## Characterization of the best-store scan -/

theorem foldl_bestStep_eq_parsed :
    ∀ (l : List (String × ApiStorePrice)) (acc : Option (String × ℚ × String)),
      l.foldl bestStep acc =
        (l.filterMap fun e =>
          (parsePrice (some e.2.price)).map fun p => (e.1, p, e.2.price)).foldl optStep acc
  | [], _ => rfl
  | e :: t, acc => by
    rcases hp : parsePrice (some e.2.price) with _ | p
    · have hstep : bestStep acc e = acc := by
        unfold bestStep; rw [hp]
      rw [List.foldl_cons, hstep, List.filterMap_cons, hp]
      exact foldl_bestStep_eq_parsed t acc
    · have hstep : bestStep acc e = optStep acc (e.1, p, e.2.price) := by
        unfold bestStep optStep minStep
        rw [hp]
        cases acc with
        | none => rfl
        | some b => by_cases h : p < b.2.1 <;> simp [h]
      rw [List.foldl_cons, hstep, List.filterMap_cons, hp]
      exact foldl_bestStep_eq_parsed t (optStep acc (e.1, p, e.2.price))

theorem foldl_optStep_some :
    ∀ (l : List (String × ℚ × String)) (b : String × ℚ × String),
      l.foldl optStep (some b) = some (l.foldl minStep b)
  | [], _ => rfl
  | x :: t, b => by
    rw [List.foldl_cons, List.foldl_cons]
    exact foldl_optStep_some t (minStep b x)

/-- The best-store scan over a row equals the first-minimum scan over its
parseable entries. -/
theorem bestOfRow_eq (row : ApiCompareRow) :
    bestOfRow row =
      match parsedEntries row with
      | [] => none
      | e :: es => some (es.foldl minStep e) := by
  unfold bestOfRow parsedEntries
  rw [foldl_bestStep_eq_parsed]
  generalize (row.prices_by_store.filterMap fun e =>
      (parsePrice (some e.2.price)).map fun p => (e.1, p, e.2.price)) = l
  cases l with
  | nil => rfl
  | cons e es => exact foldl_optStep_some es e

theorem foldl_minStep_isFirstMin :
    ∀ (es : List (String × ℚ × String)) (e : String × ℚ × String),
      IsFirstMin (e :: es) (es.foldl minStep e)
  | [], e => ⟨[], [], rfl, by simp, by simp⟩
  | x :: es, e => by
    by_cases h : x.2.1 < e.2.1
    · have hmx : minStep e x = x := by unfold minStep; rw [if_pos h]
      have hfold : (x :: es).foldl minStep e = es.foldl minStep x := by
        rw [List.foldl_cons, hmx]
      rcases foldl_minStep_isFirstMin es x with ⟨l1, l2, hdec, hlt, hle⟩
      have hrle : (es.foldl minStep x).2.1 ≤ x.2.1 := by
        cases l1 with
        | nil =>
          rw [List.nil_append] at hdec
          injection hdec with h1 _
          rw [← h1]
        | cons y t =>
          rw [List.cons_append] at hdec
          injection hdec with h1 _
          have hy := hlt y (List.mem_cons_self y t)
          rw [← h1] at hy
          exact le_of_lt hy
      rw [hfold]
      refine ⟨e :: l1, l2, ?_, ?_, hle⟩
      · rw [List.cons_append, ← hdec]
      · intro z hz
        rcases List.mem_cons.1 hz with hz | hz
        · exact hz ▸ lt_of_le_of_lt hrle h
        · exact hlt z hz
    · have hmx : minStep e x = e := by unfold minStep; rw [if_neg h]
      have hfold : (x :: es).foldl minStep e = es.foldl minStep e := by
        rw [List.foldl_cons, hmx]
      rcases foldl_minStep_isFirstMin es e with ⟨l1, l2, hdec, hlt, hle⟩
      rw [hfold]
      cases l1 with
      | nil =>
        rw [List.nil_append] at hdec
        injection hdec with h1 h2
        refine ⟨[], x :: es, ?_, by simp, ?_⟩
        · rw [List.nil_append, ← h1]
        · intro z hz
          rcases List.mem_cons.1 hz with hz | hz
          · subst hz
            rw [← h1]
            exact not_lt.1 h
          · rw [h2] at hz
            exact hle z hz
      | cons y t =>
        rw [List.cons_append] at hdec
        injection hdec with h1 h2
        refine ⟨e :: x :: t, l2, ?_, ?_, hle⟩
        · rw [List.cons_append, List.cons_append, ← h2]
        · intro z hz
          have hfe : (es.foldl minStep e).2.1 < e.2.1 := by
            have hy := hlt y (List.mem_cons_self y t)
            rw [← h1] at hy
            exact hy
          rcases List.mem_cons.1 hz with hz | hz
          · exact hz ▸ hfe
          · rcases List.mem_cons.1 hz with hz | hz
            · exact hz ▸ lt_of_lt_of_le hfe (not_lt.1 h)
            · exact hlt z (List.mem_cons_of_mem y hz)

/-- A row with no parseable entry contributes no best store. -/
theorem bestOfRow_eq_none_iff (row : ApiCompareRow) :
    bestOfRow row = none ↔ parsedEntries row = [] := by
  rw [bestOfRow_eq]
  rcases parsedEntries row with _ | ⟨e, es⟩ <;> simp

/-- The best store of a row is the first parseable entry attaining the
minimal numeric price. -/
theorem bestOfRow_isFirstMin {row : ApiCompareRow} {e : String × ℚ × String}
    (h : bestOfRow row = some e) : IsFirstMin (parsedEntries row) e := by
  rw [bestOfRow_eq] at h
  rcases hpe : parsedEntries row with _ | ⟨x, es⟩
  · rw [hpe] at h; exact absurd h (by simp)
  · rw [hpe] at h
    have h2 : es.foldl minStep x = e := by simpa using h
    exact h2 ▸ foldl_minStep_isFirstMin es x

/-! ## Map lemmas -/

theorem mapGet_mapSetAppend_same (m : List (String × List GroupedItem))
    (store : String) (item : GroupedItem) :
    mapGet (mapSetAppend m store item) store =
      some ((mapGet m store).getD [] ++ [item]) := by
  induction m with
  | nil => simp [mapSetAppend, mapGet]
  | cons e rest ih =>
    rcases e with ⟨k, items⟩
    by_cases hk : k = store
    · subst hk
      simp [mapSetAppend, mapGet]
    · simp [mapSetAppend, mapGet, hk, ih]

theorem mapGet_mapSetAppend_other (m : List (String × List GroupedItem))
    (store : String) (item : GroupedItem) (s : String) (h : s ≠ store) :
    mapGet (mapSetAppend m store item) s = mapGet m s := by
  have h2 : ¬ store = s := fun hh => h hh.symm
  induction m with
  | nil => simp [mapSetAppend, mapGet, h2]
  | cons e rest ih =>
    rcases e with ⟨k, items⟩
    by_cases hk : k = store
    · subst hk
      have hks : ¬ k = s := fun hh => h hh.symm
      simp [mapSetAppend, mapGet, hks]
    · by_cases hks : k = s <;> simp [mapSetAppend, mapGet, hk, hks, h, ih]

theorem keys_mapSetAppend_mem (m : List (String × List GroupedItem))
    (store : String) (item : GroupedItem) (h : store ∈ m.map Prod.fst) :
    (mapSetAppend m store item).map Prod.fst = m.map Prod.fst := by
  induction m with
  | nil => simp at h
  | cons e rest ih =>
    rcases e with ⟨k, items⟩
    by_cases hk : k = store
    · subst hk
      simp [mapSetAppend]
    · have hrest : store ∈ rest.map Prod.fst := by
        rcases List.mem_cons.1 h with h2 | h2
        · exact absurd h2.symm hk
        · exact h2
      simp [mapSetAppend, hk, ih hrest]

theorem keys_mapSetAppend_new (m : List (String × List GroupedItem))
    (store : String) (item : GroupedItem) (h : store ∉ m.map Prod.fst) :
    (mapSetAppend m store item).map Prod.fst = m.map Prod.fst ++ [store] := by
  induction m with
  | nil => simp [mapSetAppend]
  | cons e rest ih =>
    rcases e with ⟨k, items⟩
    have hk : ¬ k = store := fun hh => h (by simp [hh])
    have hrest : store ∉ rest.map Prod.fst := fun hh => h (by simp [hh])
    simp [mapSetAppend, hk, ih hrest]

theorem mapGet_mapSetNat_same (m : List (String × ℕ)) (store : String) (v : ℕ) :
    mapGet (mapSetNat m store v) store = some v := by
  induction m with
  | nil => simp [mapSetNat, mapGet]
  | cons e rest ih =>
    rcases e with ⟨k, n⟩
    by_cases hk : k = store
    · subst hk
      simp [mapSetNat, mapGet]
    · simp [mapSetNat, mapGet, hk, ih]

theorem mapGet_mapSetNat_other (m : List (String × ℕ)) (store : String) (v : ℕ)
    (s : String) (h : s ≠ store) :
    mapGet (mapSetNat m store v) s = mapGet m s := by
  have h2 : ¬ store = s := fun hh => h hh.symm
  induction m with
  | nil => simp [mapSetNat, mapGet, h2]
  | cons e rest ih =>
    rcases e with ⟨k, n⟩
    by_cases hk : k = store
    · subst hk
      have hks : ¬ k = s := fun hh => h hh.symm
      simp [mapSetNat, mapGet, hks]
    · by_cases hks : k = s <;> simp [mapSetNat, mapGet, hk, hks, h, ih]

/-! ## Characterization of the shared grouping fold -/

theorem mapGet_assignFold (f : ApiCompareRow → Option GroupedItem) :
    ∀ (rows : List ApiCompareRow) (m : List (String × List GroupedItem)) (s : String),
      mapGet (assignFold f rows m) s =
        match mapGet m s, itemsFor f rows s with
        | some l, items => some (l ++ items)
        | none, [] => none
        | none, items => some items
  | [], m, s => by
    unfold assignFold itemsFor
    simp only [List.foldl_nil, List.filterMap_nil, List.filter_nil]
    rcases mapGet m s with _ | l <;> simp
  | row :: rest, m, s => by
    have hstep : assignFold f (row :: rest) m =
        assignFold f rest (match f row with
          | none => m
          | some item => mapSetAppend m item.store item) := by
      unfold assignFold
      rw [List.foldl_cons]
    have hitems : itemsFor f (row :: rest) s =
        (match f row with
          | none => itemsFor f rest s
          | some item => if item.store == s then item :: itemsFor f rest s
              else itemsFor f rest s) := by
      unfold itemsFor
      rw [List.filterMap_cons]
      rcases f row with _ | item
      · rfl
      · rw [List.filter_cons]
    rw [hstep, hitems]
    rcases hf : f row with _ | item
    · exact mapGet_assignFold f rest m s
    · rw [mapGet_assignFold f rest (mapSetAppend m item.store item) s]
      by_cases hs : s = item.store
      · subst hs
        rw [mapGet_mapSetAppend_same]
        have hbs : (item.store == item.store) = true := by simp
        rcases mapGet m item.store with _ | l <;> simp [hbs]
      · rw [mapGet_mapSetAppend_other m item.store item s hs]
        have hbs : (item.store == s) = false := by
          simp only [beq_eq_false_iff_ne, ne_eq]
          exact fun h => hs h.symm
        simp only [hbs, Bool.false_eq_true, if_false]

theorem keys_assignFold_mem (f : ApiCompareRow → Option GroupedItem) :
    ∀ (rows : List ApiCompareRow) (m : List (String × List GroupedItem)) (s : String),
      s ∈ (assignFold f rows m).map Prod.fst ↔
        s ∈ m.map Prod.fst ∨ s ∈ (rows.filterMap f).map GroupedItem.store
  | [], m, s => by simp [assignFold]
  | row :: rest, m, s => by
    have hstep : assignFold f (row :: rest) m =
        assignFold f rest (match f row with
          | none => m
          | some item => mapSetAppend m item.store item) := by
      unfold assignFold
      rw [List.foldl_cons]
    rw [hstep, List.filterMap_cons]
    rcases f row with _ | item
    · exact keys_assignFold_mem f rest m s
    · rw [keys_assignFold_mem f rest (mapSetAppend m item.store item) s]
      by_cases hm : item.store ∈ m.map Prod.fst
      · rw [keys_mapSetAppend_mem m item.store item hm]
        simp only [List.map_cons, List.mem_cons]
        constructor
        · rintro (h | h)
          · exact Or.inl h
          · exact Or.inr (Or.inr h)
        · rintro (h | h | h)
          · exact Or.inl h
          · exact Or.inl (h ▸ hm)
          · exact Or.inr h
      · rw [keys_mapSetAppend_new m item.store item hm]
        simp only [List.map_cons, List.mem_cons, List.mem_append, List.mem_singleton]
        tauto

theorem keys_assignFold_nodup (f : ApiCompareRow → Option GroupedItem) :
    ∀ (rows : List ApiCompareRow) (m : List (String × List GroupedItem)),
      (m.map Prod.fst).Nodup → ((assignFold f rows m).map Prod.fst).Nodup
  | [], m, h => h
  | row :: rest, m, h => by
    have hstep : assignFold f (row :: rest) m =
        assignFold f rest (match f row with
          | none => m
          | some item => mapSetAppend m item.store item) := by
      unfold assignFold
      rw [List.foldl_cons]
    rw [hstep]
    rcases f row with _ | item
    · exact keys_assignFold_nodup f rest m h
    · refine keys_assignFold_nodup f rest _ ?_
      by_cases hm : item.store ∈ m.map Prod.fst
      · rwa [keys_mapSetAppend_mem m item.store item hm]
      · rw [keys_mapSetAppend_new m item.store item hm]
        refine List.Nodup.append h (List.nodup_singleton _) ?_
        intro a ha hb
        rw [List.mem_singleton] at hb
        exact hm (hb ▸ ha)

theorem keys_assignFold_of_covered (f : ApiCompareRow → Option GroupedItem) :
    ∀ (rows : List ApiCompareRow) (m : List (String × List GroupedItem)),
      (∀ row it, f row = some it → it.store ∈ m.map Prod.fst) →
      (assignFold f rows m).map Prod.fst = m.map Prod.fst
  | [], _, _ => rfl
  | row :: rest, m, hcov => by
    have hstep : assignFold f (row :: rest) m =
        assignFold f rest (match f row with
          | none => m
          | some item => mapSetAppend m item.store item) := by
      unfold assignFold
      rw [List.foldl_cons]
    rw [hstep]
    rcases hf : f row with _ | item
    · exact keys_assignFold_of_covered f rest m hcov
    · have hkeys : (mapSetAppend m item.store item).map Prod.fst = m.map Prod.fst :=
        keys_mapSetAppend_mem m item.store item (hcov row item hf)
      rw [keys_assignFold_of_covered f rest _ (by rw [hkeys]; exact hcov), hkeys]

/-! ## Association lists with known keys -/

theorem mem_iff_mapGet {α : Type} (m : List (String × α)) (s : String) (v : α)
    (hnd : (m.map Prod.fst).Nodup) : (s, v) ∈ m ↔ mapGet m s = some v := by
  induction m with
  | nil => simp [mapGet]
  | cons e rest ih =>
    rcases e with ⟨k, w⟩
    rcases List.nodup_cons.1 hnd with ⟨hk, hrest⟩
    by_cases hs : k = s
    · subst hs
      rw [List.mem_cons,
        show mapGet ((k, w) :: rest) k = if k = k then some w else mapGet rest k from rfl,
        if_pos rfl]
      constructor
      · rintro (h | h)
        · have h2 : v = w := congrArg Prod.snd h
          rw [h2]
        · exact absurd (List.mem_map_of_mem Prod.fst h) hk
      · intro h
        have h2 : w = v := by injection h
        exact Or.inl (by rw [h2])
    · rw [List.mem_cons,
        show mapGet ((k, w) :: rest) s = if k = s then some w else mapGet rest s from rfl,
        if_neg hs, ← ih hrest]
      constructor
      · rintro (h | h)
        · exact absurd (congrArg Prod.fst h).symm hs
        · exact h
      · exact Or.inr

theorem assoc_eq_map {α : Type} :
    ∀ (m : List (String × α)) (ks : List String) (g : String → α),
      m.map Prod.fst = ks → ks.Nodup →
      (∀ s ∈ ks, mapGet m s = some (g s)) →
      m = ks.map fun s => (s, g s)
  | [], ks, g, hkeys, _, _ => by simp at hkeys; simp [← hkeys]
  | (k, v) :: rest, ks, g, hkeys, hnd, hval => by
    rcases ks with _ | ⟨k2, ks2⟩
    · simp at hkeys
    · simp only [List.map_cons, List.cons.injEq] at hkeys
      rcases hkeys with ⟨hk, hkeys2⟩
      subst hk
      rcases List.nodup_cons.1 hnd with ⟨hk2, hnd2⟩
      have hv : v = g k := by
        have h3 := hval k (List.mem_cons_self k ks2)
        simpa [mapGet] using h3
      have hrest : rest = ks2.map fun s => (s, g s) := by
        refine assoc_eq_map rest ks2 g hkeys2 hnd2 fun s hs => ?_
        have hneq : ¬ k = s := fun h => hk2 (h ▸ hs)
        have := hval s (List.mem_cons_of_mem k hs)
        rwa [mapGet, if_neg hneq] at this
      rw [List.map_cons, hv, hrest]

/-! ## The availability counters compute the coverage counts -/

theorem mapGet_bumpFold (P : String → Bool) :
    ∀ (sts : List String) (m : List (String × ℕ)) (s : String), sts.Nodup →
      mapGet (sts.foldl (fun acc store =>
          if P store then mapSetNat acc store ((mapGet acc store).getD 0 + 1)
          else acc) m) s =
        if s ∈ sts ∧ P s then some ((mapGet m s).getD 0 + 1) else mapGet m s
  | [], m, s, _ => by simp
  | st :: rest, m, s, hnd => by
    rcases List.nodup_cons.1 hnd with ⟨hst, hrest⟩
    rw [List.foldl_cons]
    rw [mapGet_bumpFold P rest _ s hrest]
    by_cases hs : s = st
    · subst hs
      have hsrest : s ∉ rest := hst
      by_cases hp : P s
      · simp only [hsrest, false_and, if_neg, ite_false]
        rw [if_pos hp, mapGet_mapSetNat_same]
        simp [hp]
      · simp only [hsrest, false_and, if_neg, ite_false]
        rw [if_neg hp]
        simp [hp]
    · have hget : mapGet (if P st then
          mapSetNat m st ((mapGet m st).getD 0 + 1) else m) s = mapGet m s := by
        by_cases hp : P st
        · rw [if_pos hp, mapGet_mapSetNat_other _ _ _ _ hs]
        · rw [if_neg hp]
      rw [hget]
      by_cases hmem : s ∈ rest
      · have : s ∈ st :: rest := List.mem_cons_of_mem st hmem
        simp [hmem, this]
      · have : s ∈ st :: rest ↔ False := by simp [hs, hmem]
        simp [hmem, this]

theorem mapGet_countFold (sts : List String) (hnd : sts.Nodup) (s : String) :
    ∀ (rows : List ApiCompareRow) (m : List (String × ℕ)) (c : ℕ),
      mapGet m s = (if s ∈ sts then some c else none) →
      mapGet (rows.foldl (fun m2 row => sts.foldl (fun acc store =>
          if (parsePrice (priceAt row store)).isSome then
            mapSetNat acc store ((mapGet acc store).getD 0 + 1)
          else acc) m2) m) s =
        (if s ∈ sts then some (c + coverageCount rows s) else none)
  | [], m, c, hm => by
    simpa [coverageCount] using hm
  | row :: rest, m, c, hm => by
    rw [List.foldl_cons]
    have h1 : mapGet (sts.foldl (fun acc store =>
        if (parsePrice (priceAt row store)).isSome then
          mapSetNat acc store ((mapGet acc store).getD 0 + 1)
        else acc) m) s =
        (if s ∈ sts then some (c + (if hasPriceAt row s then 1 else 0)) else none) := by
      rw [mapGet_bumpFold (fun store => (parsePrice (priceAt row store)).isSome) sts m s hnd]
      by_cases hmem : s ∈ sts
      · by_cases hp : (parsePrice (priceAt row s)).isSome
        · simp [hmem, hp, hm, hasPriceAt]
        · simp [hmem, hp, hm, hasPriceAt]
      · simp [hmem, hm]
    rw [mapGet_countFold sts hnd s rest _ _ h1]
    by_cases hmem : s ∈ sts
    · rw [if_pos hmem, if_pos hmem]
      have hcov : coverageCount (row :: rest) s =
          (if hasPriceAt row s then 1 else 0) + coverageCount rest s := by
        unfold coverageCount
        rw [List.countP_cons]
        by_cases hp : hasPriceAt row s <;> simp [hp] <;> omega
      rw [hcov]
      congr 1
      omega
    · rw [if_neg hmem, if_neg hmem]

theorem mapGet_initZero (sts : List String) (s : String) :
    mapGet (sts.map fun st => (st, 0)) s = (if s ∈ sts then some 0 else none) := by
  induction sts with
  | nil => simp [mapGet]
  | cons st rest ih =>
    by_cases hs : st = s
    · subst hs
      simp [mapGet]
    · have hne : ¬ s = st := fun h => hs h.symm
      simp only [List.map_cons, mapGet, if_neg hs, ih]
      simp [List.mem_cons, hne]

/-- The Map of availability counters holds, for every global store, the
number of rows with a parseable price there. -/
theorem mapGet_availabilityCountMap (rows : List ApiCompareRow)
    (sts : List String) (hnd : sts.Nodup) (s : String) :
    mapGet (availabilityCountMap rows sts) s =
      (if s ∈ sts then some (coverageCount rows s) else none) := by
  unfold availabilityCountMap
  have := mapGet_countFold sts hnd s rows (sts.map fun st => (st, 0)) 0
    (mapGet_initZero sts s)
  simpa using this

/-! ## Store-list lemmas -/

theorem stores_nodup (rows : List ApiCompareRow) : (stores rows).Nodup :=
  (List.perm_insertionSort strLE _).nodup_iff.2 (List.nodup_dedup _)

theorem stores_sorted (rows : List ApiCompareRow) :
    (stores rows).Sorted strLE :=
  List.sorted_insertionSort strLE _

theorem stores_mem_iff (rows : List ApiCompareRow) (s : String) :
    s ∈ stores rows ↔
      s ≠ "" ∧ ∃ row ∈ rows, s ∈ row.prices_by_store.map Prod.fst := by
  unfold stores
  rw [List.mem_insertionSort, List.mem_dedup, List.mem_flatMap]
  constructor
  · rintro ⟨row, hrow, hs⟩
    rcases List.mem_filter.1 hs with ⟨hmem, hne⟩
    exact ⟨by simpa using hne, row, hrow, hmem⟩
  · rintro ⟨hne, row, hrow, hmem⟩
    exact ⟨row, hrow, List.mem_filter.2 ⟨hmem, by simpa using hne⟩⟩

/-- The empty store name never enters the global store list. -/
theorem empty_not_mem_stores (rows : List ApiCompareRow) : "" ∉ stores rows := by
  intro h
  exact absurd rfl (stores_mem_iff rows "" |>.1 h).1

theorem stores_perm_congr (rows rows' : List ApiCompareRow)
    (h : rows.Perm rows') : stores rows = stores rows' := by
  unfold stores
  have hperm :
      ((rows.flatMap fun row =>
        (row.prices_by_store.map Prod.fst).filter fun s => s != "").dedup).Perm
      ((rows'.flatMap fun row =>
        (row.prices_by_store.map Prod.fst).filter fun s => s != "").dedup) :=
    (h.flatMap_right _).dedup
  exact List.eq_of_perm_of_sorted
    ((List.perm_insertionSort strLE _).trans
      (hperm.trans (List.perm_insertionSort strLE _).symm))
    (List.sorted_insertionSort strLE _) (List.sorted_insertionSort strLE _)

/-! ## Ranking lemmas -/

theorem rankedStores_perm (rows : List ApiCompareRow) :
    (rankedStores rows).Perm (stores rows) :=
  List.perm_insertionSort _ _

theorem rankedStores_nodup (rows : List ApiCompareRow) :
    (rankedStores rows).Nodup :=
  (rankedStores_perm rows).nodup_iff.2 (stores_nodup rows)

/-- The ranked store list is sorted by coverage count descending with
ties broken by name ascending, stated with the specification-side
coverage count. -/
theorem rankedStores_sorted (rows : List ApiCompareRow) :
    (rankedStores rows).Sorted (rankLE (coverageCount rows)) := by
  have hs : (rankedStores rows).Sorted
      (rankLE fun s => (mapGet (availabilityCountMap rows (stores rows)) s).getD 0) :=
    List.sorted_insertionSort _ _
  have hcnt : ∀ s ∈ rankedStores rows,
      (mapGet (availabilityCountMap rows (stores rows)) s).getD 0 =
        coverageCount rows s := by
    intro s hs2
    have hmem : s ∈ stores rows := (rankedStores_perm rows).mem_iff.1 hs2
    rw [mapGet_availabilityCountMap rows (stores rows) (stores_nodup rows) s,
      if_pos hmem]
    rfl
  refine hs.imp_of_mem ?_
  intro a b ha hb hab
  have ha2 := hcnt a ha
  have hb2 := hcnt b hb
  unfold rankLE at hab ⊢
  rcases hab with h | ⟨h1, h2⟩
  · refine Or.inl ?_
    rw [← ha2, ← hb2]
    exact h
  · refine Or.inr ⟨?_, h2⟩
    rw [← ha2, ← hb2]
    exact h1

/-! ## Comparison-table helper lemmas -/

theorem mapGet_numericByStore (sts : List String) (row : ApiCompareRow)
    (hnd : sts.Nodup) (s : String) :
    mapGet (numericByStore sts row) s =
      (if s ∈ sts then parsePrice (priceAt row s) else none) := by
  induction sts with
  | nil => simp [numericByStore, mapGet]
  | cons st rest ih =>
    rcases List.nodup_cons.1 hnd with ⟨hst, hrest⟩
    have htail : mapGet (rest.filterMap fun store =>
        (parsePrice (priceAt row store)).map fun p => (store, p)) s =
        (if s ∈ rest then parsePrice (priceAt row s) else none) := ih hrest
    by_cases hs : s = st
    · subst hs
      have htail2 : mapGet (rest.filterMap fun store =>
          (parsePrice (priceAt row store)).map fun p => (store, p)) s = none := by
        rw [htail, if_neg hst]
      rw [if_pos (List.mem_cons_self s rest)]
      unfold numericByStore
      rw [List.filterMap_cons]
      rcases hp : parsePrice (priceAt row s) with _ | p
      · exact htail2
      · simp [mapGet]
    · have hne : ¬ st = s := fun h => hs h.symm
      have hmem : (s ∈ st :: rest) ↔ s ∈ rest := by simp [List.mem_cons, hs]
      have hrhs : (if s ∈ rest then parsePrice (priceAt row s) else none) =
          (if s ∈ st :: rest then parsePrice (priceAt row s) else none) := by
        by_cases h2 : s ∈ rest
        · rw [if_pos h2, if_pos (hmem.2 h2)]
        · rw [if_neg h2, if_neg (fun h3 => h2 (hmem.1 h3))]
      unfold numericByStore
      rw [List.filterMap_cons]
      rcases hp : parsePrice (priceAt row st) with _ | p
      · exact htail.trans hrhs
      · have hloc : mapGet ((st, p) :: rest.filterMap fun store =>
            (parsePrice (priceAt row store)).map fun p => (store, p)) s =
            mapGet (rest.filterMap fun store =>
              (parsePrice (priceAt row store)).map fun p => (store, p)) s := by
          show (if st = s then some p else _) = _
          rw [if_neg hne]
        exact hloc.trans (htail.trans hrhs)

theorem foldl_min_mem : ∀ (vs : List ℚ) (v : ℚ), vs.foldl min v ∈ v :: vs
  | [], v => List.mem_singleton.2 rfl
  | x :: t, v => by
    rw [List.foldl_cons]
    rcases List.mem_cons.1 (foldl_min_mem t (min v x)) with h2 | h2
    · rcases min_choice v x with h | h
      · exact List.mem_cons.2 (Or.inl (h2.trans h))
      · exact List.mem_cons.2 (Or.inr (List.mem_cons.2 (Or.inl (h2.trans h))))
    · exact List.mem_cons.2 (Or.inr (List.mem_cons.2 (Or.inr h2)))

theorem foldl_min_le : ∀ (vs : List ℚ) (v : ℚ) (x : ℚ), x ∈ v :: vs →
    vs.foldl min v ≤ x
  | [], v, x, hx => by
    have h : x = v := by simpa using hx
    rw [h]
    exact le_refl v
  | y :: t, v, x, hx => by
    rw [List.foldl_cons]
    rcases List.mem_cons.1 hx with h | h
    · rw [h]
      exact le_trans (foldl_min_le t (min v y) (min v y)
        (List.mem_cons_self _ _)) (min_le_left v y)
    · rcases List.mem_cons.1 h with h2 | h2
      · rw [h2]
        exact le_trans (foldl_min_le t (min v y) (min v y)
          (List.mem_cons_self _ _)) (min_le_right v y)
      · exact foldl_min_le t (min v y) x (List.mem_cons_of_mem _ h2)

theorem foldl_max_mem : ∀ (vs : List ℚ) (v : ℚ), vs.foldl max v ∈ v :: vs
  | [], v => List.mem_singleton.2 rfl
  | x :: t, v => by
    rw [List.foldl_cons]
    rcases List.mem_cons.1 (foldl_max_mem t (max v x)) with h2 | h2
    · rcases max_choice v x with h | h
      · exact List.mem_cons.2 (Or.inl (h2.trans h))
      · exact List.mem_cons.2 (Or.inr (List.mem_cons.2 (Or.inl (h2.trans h))))
    · exact List.mem_cons.2 (Or.inr (List.mem_cons.2 (Or.inr h2)))

theorem le_foldl_max : ∀ (vs : List ℚ) (v : ℚ) (x : ℚ), x ∈ v :: vs →
    x ≤ vs.foldl max v
  | [], v, x, hx => by
    have h : x = v := by simpa using hx
    rw [h]
    exact le_refl v
  | y :: t, v, x, hx => by
    rw [List.foldl_cons]
    rcases List.mem_cons.1 hx with h | h
    · rw [h]
      exact le_trans (le_max_left v y) (le_foldl_max t (max v y) (max v y)
        (List.mem_cons_self _ _))
    · rcases List.mem_cons.1 h with h2 | h2
      · rw [h2]
        exact le_trans (le_max_right v y) (le_foldl_max t (max v y) (max v y)
          (List.mem_cons_self _ _))
      · exact le_foldl_max t (max v y) x (List.mem_cons_of_mem _ h2)

/-! ## The plan-page scan computes the same best price -/

theorem foldl_planBestStep_eq :
    ∀ (l : List (String × ApiStorePrice)) (acc : Option (String × ℚ × String)),
      l.foldl planBestStep (acc.map fun e => e.2.1) =
        (l.foldl bestStep acc).map fun e => e.2.1
  | [], acc => rfl
  | e :: t, acc => by
    rw [List.foldl_cons, List.foldl_cons]
    rcases hp : parsePrice (some e.2.price) with _ | p
    · have h1 : planBestStep (acc.map fun e => e.2.1) e = acc.map fun e => e.2.1 := by
        unfold planBestStep; rw [hp]
      have h2 : bestStep acc e = acc := by
        unfold bestStep; rw [hp]
      rw [h1, h2]
      exact foldl_planBestStep_eq t acc
    · rcases acc with _ | b
      · have h1 : planBestStep (Option.map (fun e => e.2.1)
            (none : Option (String × ℚ × String))) e = some p := by
          unfold planBestStep; rw [hp]; rfl
        have h2 : bestStep none e = some (e.1, p, e.2.price) := by
          unfold bestStep; rw [hp]
        rw [h1, h2]
        exact foldl_planBestStep_eq t (some (e.1, p, e.2.price))
      · by_cases hlt : p < b.2.1
        · have h1 : planBestStep (Option.map (fun e => e.2.1) (some b)) e = some p := by
            unfold planBestStep; rw [hp]; simp [hlt]
          have h2 : bestStep (some b) e = some (e.1, p, e.2.price) := by
            unfold bestStep; rw [hp]; simp [hlt]
          rw [h1, h2]
          exact foldl_planBestStep_eq t (some (e.1, p, e.2.price))
        · have h1 : planBestStep (Option.map (fun e => e.2.1) (some b)) e =
              Option.map (fun e => e.2.1) (some b) := by
            unfold planBestStep; rw [hp]; simp [hlt]
          have h2 : bestStep (some b) e = some b := by
            unfold bestStep; rw [hp]; simp [hlt]
          rw [h1, h2]
          exact foldl_planBestStep_eq t (some b)

theorem planBest_eq (row : ApiCompareRow) :
    planBest row = (bestOfRow row).map fun e => e.2.1 := by
  unfold planBest bestOfRow
  exact foldl_planBestStep_eq row.prices_by_store none

/-! ## Row-level assignment lemmas -/

theorem mapGet_mem {α : Type} :
    ∀ (m : List (String × α)) (s : String) (v : α),
      mapGet m s = some v → (s, v) ∈ m
  | [], _, _, h => by simp [mapGet] at h
  | (k, w) :: rest, s, v, h => by
    by_cases hk : k = s
    · subst hk
      rw [mapGet, if_pos rfl] at h
      have h2 : w = v := by injection h
      exact h2 ▸ List.mem_cons_self _ _
    · rw [mapGet, if_neg hk] at h
      exact List.mem_cons_of_mem _ (mapGet_mem rest s v h)

/-- A parseable price at a store yields a parseable entry of the row. -/
theorem mem_parsedEntries_of_priceAt {row : ApiCompareRow} {store : String}
    {p : ℚ} (h : parsePrice (priceAt row store) = some p) :
    ∃ t, (store, p, t) ∈ parsedEntries row := by
  unfold priceAt at h
  rcases hm : mapGet row.prices_by_store store with _ | cell
  · rw [hm] at h
    simp [parsePrice] at h
  · rw [hm] at h
    refine ⟨cell.price, ?_⟩
    unfold parsedEntries
    refine List.mem_filterMap.2 ⟨(store, cell), mapGet_mem _ _ _ hm, ?_⟩
    simpa using h

/-- A row with no parseable entry has no parseable price at any store. -/
theorem parsePrice_none_of_parsedEntries_nil {row : ApiCompareRow}
    (h : parsedEntries row = []) (store : String) :
    parsePrice (priceAt row store) = none := by
  rcases hp : parsePrice (priceAt row store) with _ | p
  · rfl
  · rcases mem_parsedEntries_of_priceAt hp with ⟨t, hmem⟩
    rw [h] at hmem
    exact absurd hmem (List.not_mem_nil _)

theorem cheapestAssign_some_iff (row : ApiCompareRow) (it : GroupedItem) :
    cheapestAssign row = some it ↔
      ∃ b, bestOfRow row = some b ∧ b.1 ≠ "" ∧
        it = cheapestItemOf row b.1 b.2.1 b.2.2 := by
  unfold cheapestAssign
  rcases hb : bestOfRow row with _ | b
  · simp
  · by_cases he : b.1 = ""
    · simp only [he, if_pos rfl]
      constructor
      · intro h
        exact absurd h (by simp)
      · rintro ⟨b2, hb2, hne, _⟩
        have hbb : b = b2 := by injection hb2
        exact absurd (hbb ▸ he) hne
    · simp only [if_neg he]
      constructor
      · intro h
        have h2 : cheapestItemOf row b.1 b.2.1 b.2.2 = it := by injection h
        exact ⟨b, rfl, he, h2.symm⟩
      · rintro ⟨b2, hb2, _, hit⟩
        have hbb : b = b2 := by injection hb2
        rw [hit, hbb]

theorem cheapestAssign_key {row : ApiCompareRow} {it : GroupedItem}
    (h : cheapestAssign row = some it) : it.product_key = row.product_key := by
  rcases (cheapestAssign_some_iff row it).1 h with ⟨b, _, _, hit⟩
  rw [hit]
  rfl

theorem cheapestAssign_none_of_nil {row : ApiCompareRow}
    (h : parsedEntries row = []) : cheapestAssign row = none := by
  unfold cheapestAssign
  rw [(bestOfRow_eq_none_iff row).2 h]

theorem availAssign_some_iff (ranked : List String) (row : ApiCompareRow)
    (it : GroupedItem) :
    availAssign ranked row = some it ↔
      ∃ s, chosenStore ranked row = some s ∧ it = availItem row s := by
  unfold availAssign
  rcases hc : chosenStore ranked row with _ | s
  · simp [hc]
  · simp only [Option.map_some']
    constructor
    · intro h
      have h2 : availItem row s = it := by injection h
      exact ⟨s, rfl, h2.symm⟩
    · rintro ⟨s2, hs2, hit⟩
      have hss : s = s2 := by injection hs2
      rw [hit, hss]

theorem availAssign_key {ranked : List String} {row : ApiCompareRow}
    {it : GroupedItem} (h : availAssign ranked row = some it) :
    it.product_key = row.product_key := by
  rcases (availAssign_some_iff ranked row it).1 h with ⟨s, _, hit⟩
  rw [hit]
  rfl

theorem availAssign_store {ranked : List String} {row : ApiCompareRow}
    {it : GroupedItem} (h : availAssign ranked row = some it) :
    it.store ∈ ranked := by
  rcases (availAssign_some_iff ranked row it).1 h with ⟨s, hs, hit⟩
  rw [hit]
  exact List.mem_of_find?_eq_some hs

theorem availAssign_none_of_nil {ranked : List String} {row : ApiCompareRow}
    (h : parsedEntries row = []) : availAssign ranked row = none := by
  unfold availAssign chosenStore
  rw [List.find?_eq_none.2 fun store _ => ?_]
  · rfl
  · rw [parsePrice_none_of_parsedEntries_nil h store]
    simp

/-! ## Structure of the Policy A output -/

theorem cheapestGroups_perm (rows : List ApiCompareRow) :
    (cheapestGroups rows).Perm
      ((assignFold cheapestAssign rows []).map fun e => StoreGroup.mk e.1 e.2) :=
  List.perm_insertionSort _ _

theorem cheapestGroups_sorted (rows : List ApiCompareRow) :
    (cheapestGroups rows).Sorted fun a b => strLE a.store b.store :=
  List.sorted_insertionSort _ _

theorem mapGet_cheapest_byStore (rows : List ApiCompareRow) (s : String) :
    mapGet (assignFold cheapestAssign rows []) s =
      (if itemsFor cheapestAssign rows s = [] then none
       else some (itemsFor cheapestAssign rows s)) := by
  rw [mapGet_assignFold cheapestAssign rows [] s]
  show (match (none : Option (List GroupedItem)), itemsFor cheapestAssign rows s with
    | some l, items => some (l ++ items)
    | none, [] => none
    | none, items => some items) = _
  rcases itemsFor cheapestAssign rows s with _ | ⟨it, items⟩ <;> simp

theorem cheapest_byStore_keys_nodup (rows : List ApiCompareRow) :
    ((assignFold cheapestAssign rows []).map Prod.fst).Nodup :=
  keys_assignFold_nodup cheapestAssign rows [] (by simp)

theorem cheapestGroups_mem_iff (rows : List ApiCompareRow) (g : StoreGroup) :
    g ∈ cheapestGroups rows ↔
      itemsFor cheapestAssign rows g.store ≠ [] ∧
        g.items = itemsFor cheapestAssign rows g.store := by
  rw [(cheapestGroups_perm rows).mem_iff]
  constructor
  · intro h
    rcases List.mem_map.1 h with ⟨e, hmem, hg⟩
    have hget : mapGet (assignFold cheapestAssign rows []) e.1 = some e.2 :=
      (mem_iff_mapGet _ e.1 e.2 (cheapest_byStore_keys_nodup rows)).1 (by simpa using hmem)
    rw [mapGet_cheapest_byStore rows e.1] at hget
    by_cases hnil : itemsFor cheapestAssign rows e.1 = []
    · rw [if_pos hnil] at hget
      exact absurd hget (by simp)
    · rw [if_neg hnil] at hget
      have he2 : e.2 = itemsFor cheapestAssign rows e.1 := by
        have := hget.symm
        injection this
      have hstore : g.store = e.1 := by rw [← hg]
      have hitems : g.items = e.2 := by rw [← hg]
      rw [hstore, hitems, he2]
      exact ⟨hnil, rfl⟩
  · rintro ⟨hne, hitems⟩
    have hget : mapGet (assignFold cheapestAssign rows []) g.store =
        some (itemsFor cheapestAssign rows g.store) := by
      rw [mapGet_cheapest_byStore rows g.store, if_neg hne]
    have hmem : (g.store, itemsFor cheapestAssign rows g.store) ∈
        assignFold cheapestAssign rows [] :=
      (mem_iff_mapGet _ _ _ (cheapest_byStore_keys_nodup rows)).2 hget
    refine List.mem_map.2 ⟨(g.store, itemsFor cheapestAssign rows g.store), hmem, ?_⟩
    rcases g with ⟨gs, gi⟩
    simp only at hitems ⊢
    rw [hitems]

theorem cheapestGroups_store_nodup (rows : List ApiCompareRow) :
    ((cheapestGroups rows).map StoreGroup.store).Nodup := by
  have hperm : ((cheapestGroups rows).map StoreGroup.store).Perm
      ((assignFold cheapestAssign rows []).map Prod.fst) := by
    have h2 := (cheapestGroups_perm rows).map StoreGroup.store
    rwa [List.map_map] at h2
  exact hperm.nodup_iff.2 (cheapest_byStore_keys_nodup rows)

/-! ## Structure of the Policy B output -/

theorem mapGet_initNil (ks : List String) (s : String) :
    mapGet (ks.map fun st => (st, ([] : List GroupedItem))) s =
      (if s ∈ ks then some [] else none) := by
  induction ks with
  | nil => simp [mapGet]
  | cons st rest ih =>
    by_cases hs : st = s
    · subst hs
      simp [mapGet]
    · have hne : ¬ s = st := fun h => hs h.symm
      simp only [List.map_cons, mapGet, if_neg hs, ih]
      simp [List.mem_cons, hne]

theorem keys_map_pair {α : Type} (ks : List String) (g : String → α) :
    (ks.map fun s => (s, g s)).map Prod.fst = ks := by
  induction ks with
  | nil => rfl
  | cons st rest ih => simp [ih]

theorem avail_byStore_eq (rows : List ApiCompareRow) :
    assignFold (availAssign (rankedStores rows)) rows
        ((rankedStores rows).map fun s => (s, [])) =
      (rankedStores rows).map fun s =>
        (s, itemsFor (availAssign (rankedStores rows)) rows s) := by
  have hcov : ∀ row it, availAssign (rankedStores rows) row = some it →
      it.store ∈ (((rankedStores rows).map fun s => (s, ([] : List GroupedItem))).map Prod.fst) := by
    intro row it h
    rw [keys_map_pair]
    exact availAssign_store h
  have hkeys : (assignFold (availAssign (rankedStores rows)) rows
      ((rankedStores rows).map fun s => (s, []))).map Prod.fst = rankedStores rows := by
    rw [keys_assignFold_of_covered _ rows _ hcov, keys_map_pair]
  refine assoc_eq_map _ (rankedStores rows) _ hkeys (rankedStores_nodup rows) ?_
  intro s hs
  rw [mapGet_assignFold]
  rw [mapGet_initNil, if_pos hs]
  simp

theorem availabilityGroups_eq (rows : List ApiCompareRow) :
    availabilityGroups rows =
      (((rankedStores rows).map fun s =>
        StoreGroup.mk s (itemsFor (availAssign (rankedStores rows)) rows s)).filter
        fun g => decide (0 < g.items.length)) := by
  unfold availabilityGroups
  rw [avail_byStore_eq rows, List.map_map]
  rfl

/-! ## Normalizer lemmas -/

theorem cleaned_idem (v : String) : cleaned (cleaned v) = cleaned v := by
  unfold cleaned
  have h1 : ((v.toList.filter isPriceChar).asString).toList =
      v.toList.filter isPriceChar := rfl
  rw [h1, List.filter_eq_self.2 fun a ha => (List.mem_filter.1 ha).2]

/-! ## Claim theorems -/

set_option maxRecDepth 8000 in
/-- C4: the Price Normalizer strips every character that is not a digit
or a decimal point and parses the remainder with parseFloat; missing,
empty and all-non-numeric input give absent rather than an error; a
parse result at or beyond the double overflow bound is treated as
absent; and the documented examples hold: "$12.50" normalizes to 12.50,
"12,50" to 1250 (comma stripped as noise) and "€ 9.99" to 9.99. -/
theorem parsePrice_contract :
    parsePrice none = none ∧
    parsePrice (some "") = none ∧
    (∀ v : String, cleaned v = "" → parsePrice (some v) = none) ∧
    (∀ v : String, (∀ c ∈ v.toList, isPriceChar c = false) →
      parsePrice (some v) = none) ∧
    (∀ v : String, v ≠ "" → parsePrice (some v) = parsePrice (some (cleaned v))) ∧
    (∀ v : String, ∀ q : ℚ, parseFloatDigitsDot (cleaned v).toList = some q →
      doubleOverflow ≤ q → parsePrice (some v) = none) ∧
    parsePrice (some "$12.50") = some (mkRat 25 2) ∧
    parsePrice (some "12,50") = some (mkRat 1250 1) ∧
    parsePrice (some "€ 9.99") = some (mkRat 999 100) := by
  refine ⟨rfl, by decide, ?_, ?_, ?_, ?_, by decide, by decide, by decide⟩
  · intro v h
    simp [parsePrice, h]
  · intro v hch
    have hcl : cleaned v = "" := by
      unfold cleaned
      rw [List.filter_eq_nil_iff.2 fun c hc => by rw [hch c hc]; simp]
      rfl
    simp [parsePrice, hcl]
  · intro v hv
    by_cases hcl : cleaned v = ""
    · rw [hcl]
      simp [parsePrice, hcl]
    · have hid : cleaned (cleaned v) = cleaned v := cleaned_idem v
      simp [parsePrice, hv, hcl, hid]
  · intro v q hq hge
    have hcl : cleaned v ≠ "" := by
      intro h
      rw [h] at hq
      have hn : parseFloatDigitsDot "".toList = (none : Option ℚ) := by decide
      rw [hn] at hq
      exact absurd hq (by simp)
    have hv : v ≠ "" := by
      intro h
      refine hcl ?_
      rw [h]
      rfl
    have hfin : jsFinite q = false := by
      unfold jsFinite
      exact decide_eq_false (not_lt.2 hge)
    have hq2 : parseFloatDigitsDot (cleaned v).data = some q := hq
    simp [parsePrice, hv, hcl, hq2, hfin]

set_option maxRecDepth 8000 in
/-- C5 counterexample: the stripped remainder "1.2.3" has multiple
decimal points, yet the normalizer returns 1.2 (the longest valid prefix
read by parseFloat) instead of the absent value the claim requires. -/
theorem parsePrice_multidot_cex :
    parsePrice (some "1.2.3") = some (mkRat 6 5) ∧
    parsePrice (some "1.2.3") ≠ none := by decide

set_option maxRecDepth 8000 in
/-- C5 (amended): a stripped remainder on which parseFloat fails
entirely, holding no digit in its leading number prefix, such as "." or
"..7", normalizes to absent; but a remainder with multiple decimal
points that starts with a valid number, such as "1.2.3", parses as its
longest valid prefix 1.2 rather than absent. -/
theorem parsePrice_malformed :
    (∀ v : String, parseFloatDigitsDot (cleaned v).toList = none →
      parsePrice (some v) = none) ∧
    parsePrice (some ".") = none ∧
    parsePrice (some "..7") = none ∧
    parsePrice (some "1.2.3") = some (mkRat 6 5) := by
  refine ⟨?_, by decide, by decide, by decide⟩
  intro v h
  have h2 : parseFloatDigitsDot (cleaned v).data = (none : Option ℚ) := h
  by_cases hv : v = ""
  · simp [parsePrice, hv]
  · by_cases hcl : cleaned v = ""
    · simp [parsePrice, hv, hcl]
    · simp [parsePrice, hv, hcl, h2]

/-- C8: the derived global store list, deduplicated and sorted, is
the same for every permutation of the comparison row list. -/
theorem stores_permutation_stable (rows rows2 : List ApiCompareRow)
    (h : rows.Perm rows2) : stores rows = stores rows2 :=
  stores_perm_congr rows rows2 h

set_option maxRecDepth 8000 in
/-- C8 witness: the store list of a concrete three-row list equals the
one of a reordering of it. -/
theorem stores_permutation_stable_witness :
    stores [demoRow1, demoRow2, demoRow3] = stores [demoRow3, demoRow1, demoRow2] :=
  stores_permutation_stable [demoRow1, demoRow2, demoRow3]
    [demoRow3, demoRow1, demoRow2] (by decide)

/-- C9: both allocation policies are pure functions of the row list:
evaluating either on identical input yields identical AllocationGroup
output, with no dependence on hidden mutable state in the embedding. -/
theorem alloc_deterministic (rows rows2 : List ApiCompareRow)
    (h : rows = rows2) :
    cheapestGroups rows = cheapestGroups rows2 ∧
      availabilityGroups rows = availabilityGroups rows2 := by
  rw [h]
  exact ⟨rfl, rfl⟩

/-- C9 witness: two runs of each policy on a concrete row list agree. -/
theorem alloc_deterministic_witness :
    cheapestGroups [demoRow1, demoRow2] = cheapestGroups [demoRow1, demoRow2] ∧
      availabilityGroups [demoRow1, demoRow2] =
        availabilityGroups [demoRow1, demoRow2] :=
  alloc_deterministic [demoRow1, demoRow2] [demoRow1, demoRow2] rfl

/-! ## Highlighting helper lemmas -/

theorem mapGet_nbs_some_iff (rows : List ApiCompareRow) (row : ApiCompareRow)
    (store : String) (p : ℚ) :
    mapGet (numericByStore (stores rows) row) store = some p ↔
      store ∈ stores rows ∧ parsePrice (priceAt row store) = some p := by
  rw [mapGet_numericByStore (stores rows) row (stores_nodup rows) store]
  by_cases hmem : store ∈ stores rows
  · rw [if_pos hmem]
    simp [hmem]
  · rw [if_neg hmem]
    simp [hmem]

theorem mem_values_of_mapGet {sts : List String} {row : ApiCompareRow}
    {store : String} {p : ℚ}
    (h : mapGet (numericByStore sts row) store = some p) :
    p ∈ (numericByStore sts row).map Prod.snd :=
  List.mem_map.2 ⟨(store, p), mapGet_mem _ _ _ h, rfl⟩

/-- C3: in the comparison table a store is flagged best exactly when it
is one of the table columns and its parseable price is a lower bound of
the parseable prices of the row; it is flagged worst exactly when its
parseable price is an upper bound and two of the parseable prices
differ, so nothing is flagged worst when all parseable prices are
equal; a row with no parseable price at any column flags nothing. -/
theorem highlight_flags (rows : List ApiCompareRow) (row : ApiCompareRow)
    (store : String) :
    (isBest (stores rows) row store = true ↔
      store ∈ stores rows ∧ ∃ p, parsePrice (priceAt row store) = some p ∧
        ∀ q ∈ (numericByStore (stores rows) row).map Prod.snd, p ≤ q) ∧
    (isWorst (stores rows) row store = true ↔
      store ∈ stores rows ∧ ∃ p, parsePrice (priceAt row store) = some p ∧
        (∀ q ∈ (numericByStore (stores rows) row).map Prod.snd, q ≤ p) ∧
        ∃ q1 ∈ (numericByStore (stores rows) row).map Prod.snd,
          ∃ q2 ∈ (numericByStore (stores rows) row).map Prod.snd, q1 ≠ q2) ∧
    (numericByStore (stores rows) row = [] →
      isBest (stores rows) row store = false ∧
        isWorst (stores rows) row store = false) := by
  rcases hv : (numericByStore (stores rows) row).map Prod.snd with _ | ⟨v0, vs⟩
  · have hnbs : numericByStore (stores rows) row = [] := by
      rcases hnb : numericByStore (stores rows) row with _ | ⟨e, t⟩
      · rfl
      · rw [hnb] at hv
        exact absurd hv (by simp)
    have hmin : rowMin (stores rows) row = none := by
      unfold rowMin
      rw [hv]
    have hmax : rowMax (stores rows) row = none := by
      unfold rowMax
      rw [hv]
    have hbest : isBest (stores rows) row store = false := by
      unfold isBest
      rw [hmin]
    have hworst : isWorst (stores rows) row store = false := by
      unfold isWorst
      rw [hmin]
    refine ⟨?_, ?_, fun _ => ⟨hbest, hworst⟩⟩
    · rw [hbest]
      constructor
      · intro h
        exact absurd h (by simp)
      · rintro ⟨hmem, p, hp, _⟩
        have hg : mapGet (numericByStore (stores rows) row) store = some p :=
          (mapGet_nbs_some_iff rows row store p).2 ⟨hmem, hp⟩
        have := mem_values_of_mapGet hg
        rw [hv] at this
        exact absurd this (List.not_mem_nil p)
    · rw [hworst]
      constructor
      · intro h
        exact absurd h (by simp)
      · rintro ⟨hmem, p, hp, _⟩
        have hg : mapGet (numericByStore (stores rows) row) store = some p :=
          (mapGet_nbs_some_iff rows row store p).2 ⟨hmem, hp⟩
        have := mem_values_of_mapGet hg
        rw [hv] at this
        exact absurd this (List.not_mem_nil p)
  · have hmin : rowMin (stores rows) row = some (vs.foldl min v0) := by
      unfold rowMin
      rw [hv]
    have hmax : rowMax (stores rows) row = some (vs.foldl max v0) := by
      unfold rowMax
      rw [hv]
    have hvals : ∀ q ∈ v0 :: vs, vs.foldl min v0 ≤ q ∧ q ≤ vs.foldl max v0 :=
      fun q hq => ⟨foldl_min_le vs v0 q hq, le_foldl_max vs v0 q hq⟩
    have hminmem : vs.foldl min v0 ∈ v0 :: vs := foldl_min_mem vs v0
    have hmaxmem : vs.foldl max v0 ∈ v0 :: vs := foldl_max_mem vs v0
    refine ⟨?_, ?_, ?_⟩
    · unfold isBest
      rw [hmin]
      rcases hg : mapGet (numericByStore (stores rows) row) store with _ | p
      · constructor
        · intro h
          exact absurd h (by simp)
        · rintro ⟨hmem, p, hp, _⟩
          have hg2 : mapGet (numericByStore (stores rows) row) store = some p :=
            (mapGet_nbs_some_iff rows row store p).2 ⟨hmem, hp⟩
          rw [hg] at hg2
          exact absurd hg2 (by simp)
      · have hsp := (mapGet_nbs_some_iff rows row store p).1 hg
        have hpv : p ∈ v0 :: vs := by
          have h2 := mem_values_of_mapGet hg
          rwa [hv] at h2
        constructor
        · intro h
          have hpm : p = vs.foldl min v0 := by simpa using h
          refine ⟨hsp.1, p, hsp.2, fun q hq => ?_⟩
          rw [hpm]
          exact (hvals q hq).1
        · rintro ⟨hmem, p2, hp2, hb⟩
          have hg2 : mapGet (numericByStore (stores rows) row) store = some p2 :=
            (mapGet_nbs_some_iff rows row store p2).2 ⟨hmem, hp2⟩
          rw [hg] at hg2
          have hpp : p = p2 := by injection hg2
          subst hpp
          have h1 : p ≤ vs.foldl min v0 := hb _ hminmem
          have h2 : vs.foldl min v0 ≤ p := (hvals p hpv).1
          have h3 : p = vs.foldl min v0 := le_antisymm h1 h2
          simpa using h3
    · unfold isWorst
      rw [hmin, hmax]
      rcases hg : mapGet (numericByStore (stores rows) row) store with _ | p
      · constructor
        · intro h
          exact absurd h (by simp)
        · rintro ⟨hmem, p, hp, _⟩
          have hg2 : mapGet (numericByStore (stores rows) row) store = some p :=
            (mapGet_nbs_some_iff rows row store p).2 ⟨hmem, hp⟩
          rw [hg] at hg2
          exact absurd hg2 (by simp)
      · have hsp := (mapGet_nbs_some_iff rows row store p).1 hg
        have hpv : p ∈ v0 :: vs := by
          have h2 := mem_values_of_mapGet hg
          rwa [hv] at h2
        constructor
        · intro h
          have h2 : vs.foldl min v0 ≠ vs.foldl max v0 ∧ p = vs.foldl max v0 := by
            simpa using h
          refine ⟨hsp.1, p, hsp.2, fun q hq => ?_, vs.foldl min v0, hminmem,
            vs.foldl max v0, hmaxmem, h2.1⟩
          rw [h2.2]
          exact (hvals q hq).2
        · rintro ⟨hmem, p2, hp2, hb, q1, hq1, q2, hq2, hne⟩
          have hg2 : mapGet (numericByStore (stores rows) row) store = some p2 :=
            (mapGet_nbs_some_iff rows row store p2).2 ⟨hmem, hp2⟩
          rw [hg] at hg2
          have hpp : p = p2 := by injection hg2
          subst hpp
          have hup : p = vs.foldl max v0 :=
            le_antisymm ((hvals p hpv).2) (hb _ hmaxmem)
          have hneq : vs.foldl min v0 ≠ vs.foldl max v0 := by
            intro heq
            have e1 : q1 = vs.foldl min v0 :=
              le_antisymm (heq ▸ (hvals q1 hq1).2) (hvals q1 hq1).1
            have e2 : q2 = vs.foldl min v0 :=
              le_antisymm (heq ▸ (hvals q2 hq2).2) (hvals q2 hq2).1
            exact hne (e1.trans e2.symm)
          simp [hneq, hup]
    · intro hnbs
      rw [hnbs] at hv
      exact absurd hv (by simp)

/-- C6: the plan view reports, per row, the minimum parseable numeric
price across the stores of the row, lists every store whose price
equals that minimum sorted ascending by name, and reports no price with
an empty store list when no store price parses. -/
theorem planRow_best_pick (row : ApiCompareRow) :
    ((planRowOf row).bestPriceNumber = none ↔ parsedEntries row = []) ∧
    (∀ p, (planRowOf row).bestPriceNumber = some p →
      p ∈ (parsedEntries row).map (fun e => e.2.1) ∧
        ∀ q ∈ (parsedEntries row).map (fun e => e.2.1), p ≤ q) ∧
    (planRowOf row).supermarkets.Sorted strLE ∧
    (∀ p, (planRowOf row).bestPriceNumber = some p →
      (planRowOf row).supermarkets.Perm
        ((row.prices_by_store.filter fun e =>
          parsePrice (some e.2.price) == some p).map Prod.fst)) ∧
    (parsedEntries row = [] → (planRowOf row).supermarkets = []) := by
  have hbp : (planRowOf row).bestPriceNumber = planBest row := rfl
  have hsm : (planRowOf row).supermarkets = planSupermarkets row := rfl
  refine ⟨?_, ?_, ?_, ?_, ?_⟩
  · rw [hbp, planBest_eq, Option.map_eq_none']
    exact bestOfRow_eq_none_iff row
  · intro p hp
    rw [hbp, planBest_eq] at hp
    rcases Option.map_eq_some'.1 hp with ⟨e, he, hpe⟩
    rcases bestOfRow_isFirstMin he with ⟨l1, l2, hdec, hlt, hle⟩
    constructor
    · refine List.mem_map.2 ⟨e, ?_, hpe⟩
      rw [hdec]
      exact List.mem_append.2 (Or.inr (List.mem_cons_self e l2))
    · intro q hq
      rcases List.mem_map.1 hq with ⟨x, hx, hxq⟩
      rw [hdec] at hx
      rcases List.mem_append.1 hx with hx | hx
      · exact hxq ▸ hpe ▸ le_of_lt (hlt x hx)
      · rcases List.mem_cons.1 hx with hx | hx
        · rw [← hxq, hx, hpe]
        · exact hxq ▸ hpe ▸ hle x hx
  · rw [hsm]
    exact List.sorted_insertionSort strLE _
  · intro p hp
    rw [hbp] at hp
    rw [hsm]
    unfold planSupermarkets
    rw [hp]
    exact List.perm_insertionSort strLE _
  · intro h
    have hb : planBest row = none := by
      rw [planBest_eq, (bestOfRow_eq_none_iff row).2 h]
      rfl
    rw [hsm]
    unfold planSupermarkets
    rw [hb]
    rfl

/-- C10: the empty store name is excluded from the derived global store
list and hence from the availability ranking; and in Policy A a row
whose strictly lowest parseable price sits under the empty store name
is dropped by the falsy-bestStore guard, so its product appears in no
output group although it has parseable prices. -/
theorem empty_store_name (rows : List ApiCompareRow) (row : ApiCompareRow)
    (p : ℚ) (t : String)
    (hrow : row ∈ rows)
    (hkeys : (rows.map ApiCompareRow.product_key).Nodup)
    (hmem : ("", p, t) ∈ parsedEntries row)
    (hstrict : ∀ e ∈ parsedEntries row, e.1 ≠ "" → p < e.2.1) :
    "" ∉ stores rows ∧ "" ∉ rankedStores rows ∧
    cheapestAssign row = none ∧
    ∀ g ∈ cheapestGroups rows, ∀ it ∈ g.items,
      it.product_key ≠ row.product_key := by
  have hassign : cheapestAssign row = none := by
    rcases hb : bestOfRow row with _ | e
    · unfold cheapestAssign
      rw [hb]
    · rcases bestOfRow_isFirstMin hb with ⟨l1, l2, hdec, hlt, hle⟩
      have hemem : e ∈ parsedEntries row := by
        rw [hdec]
        exact List.mem_append.2 (Or.inr (List.mem_cons_self e l2))
      have heps : e.2.1 ≤ p := by
        have h2 : ("", p, t) ∈ l1 ++ e :: l2 := hdec ▸ hmem
        rcases List.mem_append.1 h2 with h3 | h3
        · exact le_of_lt (hlt _ h3)
        · rcases List.mem_cons.1 h3 with h3 | h3
          · rw [← h3]
          · exact hle _ h3
      have hes : e.1 = "" := by
        by_contra hnes
        exact absurd heps (not_le.2 (hstrict e hemem hnes))
      unfold cheapestAssign
      rw [hb]
      simp [hes]
  refine ⟨empty_not_mem_stores rows, ?_, hassign, ?_⟩
  · intro h
    exact empty_not_mem_stores rows ((rankedStores_perm rows).mem_iff.1 h)
  · intro g hg it hit hkey
    rcases (cheapestGroups_mem_iff rows g).1 hg with ⟨hne2, hitems⟩
    rw [hitems] at hit
    unfold itemsFor at hit
    have hit2 : it ∈ rows.filterMap cheapestAssign := (List.mem_filter.1 hit).1
    rcases List.mem_filterMap.1 hit2 with ⟨row2, hrow2, hassign2⟩
    have hkeq : row2.product_key = row.product_key := by
      rw [← cheapestAssign_key hassign2, hkey]
    have hre : row2 = row := List.inj_on_of_nodup_map hkeys hrow2 hrow hkeq
    rw [hre, hassign] at hassign2
    exact absurd hassign2 (by simp)

set_option maxRecDepth 8000 in
/-- C10 witness: in a one-row list whose strictly lowest price sits
under the empty store name, the empty name is in no store list and the
row lands in no Policy A group. -/
theorem empty_store_name_witness :
    "" ∉ stores [demoRow4] ∧ "" ∉ rankedStores [demoRow4] ∧
    cheapestAssign demoRow4 = none ∧
    ∀ g ∈ cheapestGroups [demoRow4], ∀ it ∈ g.items,
      it.product_key ≠ demoRow4.product_key :=
  empty_store_name [demoRow4] demoRow4 (mkRat 1 1) "1" (by decide) (by decide)
    (by decide) (by decide)

set_option maxRecDepth 8000 in
/-- C1 counterexample: this row has parseable prices, and its strictly
lowest one sits under the empty store name, so the claim as stated
requires the product to be assigned to that store; Policy A instead
outputs no group at all. -/
theorem policyA_cex :
    parsedEntries demoRow4 ≠ [] ∧ cheapestGroups [demoRow4] = [] := by decide

/-- C1 (amended): Policy A assigns each product to the first store
attaining the strictly lowest parseable price in its row-mapping
iteration order, except that a product whose winning store name is the
empty string is dropped; the output groups are sorted ascending by
store name, have pairwise distinct stores, and list their products in
input row order. -/
theorem policyA_grouping (rows : List ApiCompareRow) :
    ((cheapestGroups rows).Sorted fun a b => strLE a.store b.store) ∧
    ((cheapestGroups rows).map StoreGroup.store).Nodup ∧
    (∀ g ∈ cheapestGroups rows,
      g.items = (rows.filterMap cheapestAssign).filter
        (fun it => it.store == g.store) ∧ g.items ≠ []) ∧
    (∀ s, (∃ g ∈ cheapestGroups rows, g.store = s) ↔
      s ∈ (rows.filterMap cheapestAssign).map GroupedItem.store) ∧
    (∀ row, bestOfRow row = none ↔ parsedEntries row = []) ∧
    (∀ row e, bestOfRow row = some e → IsFirstMin (parsedEntries row) e) ∧
    (∀ row it, cheapestAssign row = some it ↔
      ∃ b, bestOfRow row = some b ∧ b.1 ≠ "" ∧
        it = cheapestItemOf row b.1 b.2.1 b.2.2) ∧
    (∀ row ∈ rows, ∀ it, cheapestAssign row = some it →
      ∃ g ∈ cheapestGroups rows, g.store = it.store ∧ it ∈ g.items) := by
  refine ⟨cheapestGroups_sorted rows, cheapestGroups_store_nodup rows, ?_, ?_,
    fun row => bestOfRow_eq_none_iff row, fun row e h => bestOfRow_isFirstMin h,
    fun row it => cheapestAssign_some_iff row it, ?_⟩
  · intro g hg
    rcases (cheapestGroups_mem_iff rows g).1 hg with ⟨hne, hitems⟩
    refine ⟨hitems, ?_⟩
    rw [hitems]
    exact hne
  · intro s
    constructor
    · rintro ⟨g, hg, hgs⟩
      rcases (cheapestGroups_mem_iff rows g).1 hg with ⟨hne, hitems⟩
      rcases List.exists_mem_of_ne_nil _ hne with ⟨it, hit⟩
      unfold itemsFor at hit
      have h1 := List.mem_filter.1 hit
      refine List.mem_map.2 ⟨it, h1.1, ?_⟩
      have h2 : it.store = g.store := by simpa using h1.2
      rw [h2, hgs]
    · intro hs
      rcases List.mem_map.1 hs with ⟨it, hit, hits⟩
      have hne : itemsFor cheapestAssign rows s ≠ [] := by
        intro h
        have h2 : it ∈ itemsFor cheapestAssign rows s := by
          unfold itemsFor
          exact List.mem_filter.2 ⟨hit, by simp [hits]⟩
        rw [h] at h2
        exact List.not_mem_nil it h2
      exact ⟨⟨s, itemsFor cheapestAssign rows s⟩,
        (cheapestGroups_mem_iff rows ⟨s, itemsFor cheapestAssign rows s⟩).2
          ⟨hne, rfl⟩, rfl⟩
  · intro row hrow it hassign
    have hit : it ∈ rows.filterMap cheapestAssign :=
      List.mem_filterMap.2 ⟨row, hrow, hassign⟩
    have hne : itemsFor cheapestAssign rows it.store ≠ [] := by
      intro h
      have h2 : it ∈ itemsFor cheapestAssign rows it.store := by
        unfold itemsFor
        exact List.mem_filter.2 ⟨hit, by simp⟩
      rw [h] at h2
      exact List.not_mem_nil it h2
    refine ⟨⟨it.store, itemsFor cheapestAssign rows it.store⟩,
      (cheapestGroups_mem_iff rows _).2 ⟨hne, rfl⟩, rfl, ?_⟩
    show it ∈ itemsFor cheapestAssign rows it.store
    unfold itemsFor
    exact List.mem_filter.2 ⟨hit, by simp⟩

/-- C2: Policy B ranks the global stores by coverage count descending
with ties broken by name ascending, assigns each product in input row
order to the first ranked store with a parseable price for it, and
outputs exactly one group per store that received an assignment, in
ranked order with the products of a group in input row order. -/
theorem policyB_grouping (rows : List ApiCompareRow) :
    (rankedStores rows).Perm (stores rows) ∧
    (rankedStores rows).Sorted (rankLE (coverageCount rows)) ∧
    (∀ row s, chosenStore (rankedStores rows) row = some s ↔
      (parsePrice (priceAt row s)).isSome = true ∧
        ∃ l1 l2, rankedStores rows = l1 ++ s :: l2 ∧
          ∀ st ∈ l1, parsePrice (priceAt row st) = none) ∧
    availabilityGroups rows =
      (((rankedStores rows).map fun s =>
        StoreGroup.mk s ((rows.filterMap (availAssign (rankedStores rows))).filter
          fun it => it.store == s)).filter fun g => decide (0 < g.items.length)) ∧
    (∀ row it, availAssign (rankedStores rows) row = some it ↔
      ∃ s, chosenStore (rankedStores rows) row = some s ∧ it = availItem row s) ∧
    (∀ g ∈ availabilityGroups rows, g.items ≠ []) := by
  refine ⟨rankedStores_perm rows, rankedStores_sorted rows, ?_,
    availabilityGroups_eq rows, fun row it => availAssign_some_iff _ row it, ?_⟩
  · intro row s
    unfold chosenStore
    rw [List.find?_eq_some]
    constructor
    · rintro ⟨hp, l1, l2, hdec, hl1⟩
      refine ⟨hp, l1, l2, hdec, fun st hst => ?_⟩
      have h2 := hl1 st hst
      rcases h3 : parsePrice (priceAt row st) with _ | p2
      · rfl
      · rw [h3] at h2
        simp at h2
    · rintro ⟨hp, l1, l2, hdec, hl1⟩
      refine ⟨hp, l1, l2, hdec, fun st hst => ?_⟩
      rw [hl1 st hst]
      rfl
  · intro g hg
    rw [availabilityGroups_eq rows] at hg
    rcases List.mem_filter.1 hg with ⟨_, hlen⟩
    intro h
    rw [h] at hlen
    simp at hlen

/-! ## Partition lemmas -/

theorem assigned_key_inj (f : ApiCompareRow → Option GroupedItem)
    (hf : ∀ row it, f row = some it → it.product_key = row.product_key)
    (rows : List ApiCompareRow)
    (hkeys : (rows.map ApiCompareRow.product_key).Nodup) :
    ∀ it1 ∈ rows.filterMap f, ∀ it2 ∈ rows.filterMap f,
      it1.product_key = it2.product_key → it1 = it2 := by
  intro it1 h1 it2 h2 hk
  rcases List.mem_filterMap.1 h1 with ⟨r1, hr1, hf1⟩
  rcases List.mem_filterMap.1 h2 with ⟨r2, hr2, hf2⟩
  have hk12 : r1.product_key = r2.product_key := by
    rw [← hf r1 it1 hf1, ← hf r2 it2 hf2, hk]
  have hr : r1 = r2 := List.inj_on_of_nodup_map hkeys hr1 hr2 hk12
  rw [hr] at hf1
  rw [hf1] at hf2
  exact Option.some.inj hf2

theorem availGroups_items (rows : List ApiCompareRow) (g : StoreGroup)
    (hg : g ∈ availabilityGroups rows) :
    g.items = itemsFor (availAssign (rankedStores rows)) rows g.store := by
  rw [availabilityGroups_eq rows] at hg
  rcases List.mem_filter.1 hg with ⟨hm, _⟩
  rcases List.mem_map.1 hm with ⟨s, _, hgs⟩
  rw [← hgs]

/-- C7: with unique product keys, each product key appears in at most
one group of each allocation run, and a product with no parseable
price at any store appears in no group of either policy. -/
theorem alloc_partition (rows : List ApiCompareRow)
    (hkeys : (rows.map ApiCompareRow.product_key).Nodup) :
    (∀ g1 ∈ cheapestGroups rows, ∀ g2 ∈ cheapestGroups rows,
      ∀ it1 ∈ g1.items, ∀ it2 ∈ g2.items,
        it1.product_key = it2.product_key → g1 = g2 ∧ it1 = it2) ∧
    (∀ g1 ∈ availabilityGroups rows, ∀ g2 ∈ availabilityGroups rows,
      ∀ it1 ∈ g1.items, ∀ it2 ∈ g2.items,
        it1.product_key = it2.product_key → g1 = g2 ∧ it1 = it2) ∧
    (∀ row ∈ rows, parsedEntries row = [] →
      (∀ g ∈ cheapestGroups rows, ∀ it ∈ g.items,
        it.product_key ≠ row.product_key) ∧
      (∀ g ∈ availabilityGroups rows, ∀ it ∈ g.items,
        it.product_key ≠ row.product_key)) := by
  refine ⟨?_, ?_, ?_⟩
  · intro g1 hg1 g2 hg2 it1 hit1 it2 hit2 hk
    rcases (cheapestGroups_mem_iff rows g1).1 hg1 with ⟨_, hi1⟩
    rcases (cheapestGroups_mem_iff rows g2).1 hg2 with ⟨_, hi2⟩
    rw [hi1] at hit1
    rw [hi2] at hit2
    unfold itemsFor at hit1 hit2
    have ha1 := List.mem_filter.1 hit1
    have ha2 := List.mem_filter.1 hit2
    have hite : it1 = it2 :=
      assigned_key_inj cheapestAssign (fun r it h => cheapestAssign_key h)
        rows hkeys it1 ha1.1 it2 ha2.1 hk
    have e1 : it1.store = g1.store := by simpa using ha1.2
    have e2 : it2.store = g2.store := by simpa using ha2.2
    have hs : g1.store = g2.store := by rw [← e1, ← e2, hite]
    refine ⟨?_, hite⟩
    rcases g1 with ⟨s1, i1⟩
    rcases g2 with ⟨s2, i2⟩
    simp only at hs hi1 hi2
    subst hs
    rw [hi1, hi2]
  · intro g1 hg1 g2 hg2 it1 hit1 it2 hit2 hk
    have hi1 := availGroups_items rows g1 hg1
    have hi2 := availGroups_items rows g2 hg2
    rw [hi1] at hit1
    rw [hi2] at hit2
    unfold itemsFor at hit1 hit2
    have ha1 := List.mem_filter.1 hit1
    have ha2 := List.mem_filter.1 hit2
    have hite : it1 = it2 :=
      assigned_key_inj (availAssign (rankedStores rows))
        (fun r it h => availAssign_key h) rows hkeys it1 ha1.1 it2 ha2.1 hk
    have e1 : it1.store = g1.store := by simpa using ha1.2
    have e2 : it2.store = g2.store := by simpa using ha2.2
    have hs : g1.store = g2.store := by rw [← e1, ← e2, hite]
    refine ⟨?_, hite⟩
    rcases g1 with ⟨s1, i1⟩
    rcases g2 with ⟨s2, i2⟩
    simp only at hs hi1 hi2
    subst hs
    rw [hi1, hi2]
  · intro row hrow hnil
    constructor
    · intro g hg it hit hk
      rcases (cheapestGroups_mem_iff rows g).1 hg with ⟨_, hi⟩
      rw [hi] at hit
      unfold itemsFor at hit
      have ha := (List.mem_filter.1 hit).1
      rcases List.mem_filterMap.1 ha with ⟨r2, hr2, hf2⟩
      have hk2 : r2.product_key = row.product_key := by
        rw [← cheapestAssign_key hf2, hk]
      have hre : r2 = row := List.inj_on_of_nodup_map hkeys hr2 hrow hk2
      rw [hre, cheapestAssign_none_of_nil hnil] at hf2
      exact absurd hf2 (by simp)
    · intro g hg it hit hk
      have hi := availGroups_items rows g hg
      rw [hi] at hit
      unfold itemsFor at hit
      have ha := (List.mem_filter.1 hit).1
      rcases List.mem_filterMap.1 ha with ⟨r2, hr2, hf2⟩
      have hk2 : r2.product_key = row.product_key := by
        rw [← availAssign_key hf2, hk]
      have hre : r2 = row := List.inj_on_of_nodup_map hkeys hr2 hrow hk2
      rw [hre, availAssign_none_of_nil hnil] at hf2
      exact absurd hf2 (by simp)

set_option maxRecDepth 8000 in
/-- C7 witness: on a concrete two-row list whose second row has no
parseable price, that product key appears in no group of either
policy. -/
theorem alloc_partition_witness :
    (∀ g ∈ cheapestGroups [demoRow2, demoRow5], ∀ it ∈ g.items,
      it.product_key ≠ demoRow5.product_key) ∧
    (∀ g ∈ availabilityGroups [demoRow2, demoRow5], ∀ it ∈ g.items,
      it.product_key ≠ demoRow5.product_key) :=
  (alloc_partition [demoRow2, demoRow5] (by decide)).2.2 demoRow5
    (by decide) (by decide)

end MarketHelper
